import Mathlib

/-!
Shallow embedding of the multi-source field reconciliation and validation
engine (src/utils/field_extractors.py and src/utils/validation.py).

Python values relevant to the engine are modelled by `PyVal` (None, int,
float, str), with floats modelled as rationals.  Regular-expression match
extraction is abstracted: each extractor that scans raw text receives, per
regex pattern (identified by its pattern string), the list of captured
match strings (or already-parsed integers for the `\d+` captures of the
horse-power patterns) in document order, exactly the data `re.findall`
would produce.  The rapidfuzz similarity scorer is abstracted as a function
`String → String → ℚ`; `process.extractOne` keeps the first strictly best
entry of the reference list, as rapidfuzz does.  Numeric-string parsing
covers the decimal forms that can reach the engine (optionally signed
digits with an optional fractional part); Python formatting of numbers in
explanation strings is rendered with `toString`.
-/

/-- A Python value as seen by the fusion core: `None`, an `int`, a `float`
(modelled as a rational) or a `str`. -/
inductive PyVal where
  | vNone : PyVal
  | vInt : ℤ → PyVal
  | vFloat : ℚ → PyVal
  | vStr : String → PyVal
deriving DecidableEq

/-- Python truthiness for the values above. -/
def pyTruthy : PyVal → Bool
  | .vNone => false
  | .vInt n => n ≠ 0
  | .vFloat q => q ≠ 0
  | .vStr s => s ≠ ""

/-- Value of a decimal digit character. -/
def digitVal (c : Char) : ℕ := c.toNat - 48

/-- Parse a nonempty all-digit character list as a natural number. -/
def parseDigits : List Char → Option ℕ
  | [] => Option.none
  | cs =>
    if cs.all Char.isDigit then
      some (cs.foldl (fun a c => 10 * a + digitVal c) 0)
    else
      Option.none

/-- Remove every comma, as Python `s.replace(",", "")` does. -/
def stripCommas (s : String) : String :=
  ⟨s.data.filter (fun c => c ≠ ',')⟩

/-- Remove surrounding whitespace, as Python `s.strip()` does. -/
def stripWS (s : String) : String :=
  ⟨((s.data.dropWhile Char.isWhitespace).reverse.dropWhile Char.isWhitespace).reverse⟩

/-- Parse an unsigned decimal numeral with an optional fractional part. -/
def parseFloatChars (cs : List Char) : Option ℚ :=
  match cs.span (fun c => c ≠ '.') with
  | (ip, []) => (parseDigits ip).map (fun n => (n : ℚ))
  | (ip, _ :: fp) =>
    match parseDigits ip, parseDigits fp with
    | some n, some f => some ((n : ℚ) + (f : ℚ) / (10 : ℚ) ^ fp.length)
    | _, _ => Option.none

/-- Python `float(s)` on the decimal string forms reachable in this engine. -/
def parseFloatQ (s : String) : Option ℚ :=
  match (stripWS s).data with
  | '-' :: rest => (parseFloatChars rest).map (fun q => -q)
  | '+' :: rest => parseFloatChars rest
  | t => parseFloatChars t

/-- Python `int(s)` on string input: optionally signed digits only. -/
def parseIntStr (s : String) : Option ℤ :=
  match (stripWS s).data with
  | '-' :: rest => (parseDigits rest).map (fun n => -(n : ℤ))
  | '+' :: rest => (parseDigits rest).map (fun n => (n : ℤ))
  | t => (parseDigits t).map (fun n => (n : ℤ))

/-- Truncation toward zero, Python `int()` applied to a float. -/
def truncRat (q : ℚ) : ℤ := if 0 ≤ q then ⌊q⌋ else ⌈q⌉

/-- Python `int(v)`: may raise `TypeError` on `None` and `ValueError` on a
string that is not an integer numeral. -/
def pyIntE : PyVal → Except String ℤ
  | .vNone => .error "TypeError"
  | .vInt n => .ok n
  | .vFloat q => .ok (truncRat q)
  | .vStr s =>
    match parseIntStr s with
    | some n => .ok n
    | Option.none => .error "ValueError"

/-- Python `float(v)`: may raise `TypeError` on `None` and `ValueError` on a
string that is not a numeral. -/
def pyFloatE : PyVal → Except String ℚ
  | .vNone => .error "TypeError"
  | .vInt n => .ok (n : ℚ)
  | .vFloat q => .ok q
  | .vStr s =>
    match parseFloatQ s with
    | some q => .ok q
    | Option.none => .error "ValueError"

/-- The numeric content of an `int`- or `float`-typed value. -/
def pyNum : PyVal → Option ℚ
  | .vInt n => some (n : ℚ)
  | .vFloat q => some q
  | _ => Option.none

/-- The per-field output record of the extractors:
`{value, confidence, explanation}`. -/
structure FieldResult (α : Type) where
  value : Option α
  confidence : ℚ
  explanation : String
deriving DecidableEq

/-- `process.extractOne` inner scan: keep the first strictly best reference. -/
def extractBest (sc : String → String → ℚ) (q : String) (bm : String) (bs : ℚ) :
    List String → String × ℚ
  | [] => (bm, bs)
  | r :: rs =>
    if sc q r > bs then extractBest sc q r (sc q r) rs
    else extractBest sc q bm bs rs

/-- `rapidfuzz.process.extractOne(query, master, scorer=sc)`: `none` on an
empty reference list, otherwise the first best `(reference, score)` pair. -/
def extractOne (sc : String → String → ℚ) (q : String) :
    List String → Option (String × ℚ)
  | [] => Option.none
  | r :: rs => some (extractBest sc q r (sc q r) rs)

/-- The running `(best_match, best_score, best_candidate)` state of
`extract_dealer_name`. -/
structure BestTriple where
  bm : Option String
  bs : ℚ
  bc : Option String
deriving DecidableEq

/-- The candidate loop of `extract_dealer_name`: falsy candidates are
skipped, and the triple is updated only on a strictly better score. -/
def dealerScan (sc : String → String → ℚ) (master : List String) :
    BestTriple → List String → BestTriple
  | acc, [] => acc
  | acc, c :: cs =>
    if c = "" then dealerScan sc master acc cs
    else
      match extractOne sc c master with
      | some (m, s) =>
        if s > acc.bs then dealerScan sc master ⟨some m, s, some c⟩ cs
        else dealerScan sc master acc cs
      | Option.none => dealerScan sc master acc cs

/-- The best triple over a full candidate list, from the initial state
`(None, 0, None)`. -/
def dealerBest (sc : String → String → ℚ) (master cands : List String) : BestTriple :=
  dealerScan sc master ⟨Option.none, 0, Option.none⟩ cands

/-- Explanation string of the accepted branch of `extract_dealer_name`. -/
def fuzzyMatchedExpl (bc bm : Option String) (bs : ℚ) : String :=
  "Fuzzy matched \x27" ++ bc.getD "None" ++ "\x27 to \x27" ++ bm.getD "None" ++
    "\x27 with " ++ toString bs ++ "% similarity"

/-- Explanation string of the rejected branch of `extract_dealer_name`. -/
def noDealerMatchExpl (bs : ℚ) : String :=
  "No dealer match found (best: " ++ toString bs ++ "%)"

/-- `FieldExtractor.extract_dealer_name`, as a function of the similarity
scorer, the dealer master list and the combined candidate list. -/
def extract_dealer_name (sc : String → String → ℚ) (master cands : List String) :
    FieldResult String :=
  let t := dealerBest sc master cands
  if t.bs ≥ 90 then ⟨t.bm, t.bs / 100, fuzzyMatchedExpl t.bc t.bm t.bs⟩
  else ⟨Option.none, 0, noDealerMatchExpl t.bs⟩

/-- Explanation string of the fuzzy-accepted branch of `extract_model_name`. -/
def modelMatchedExpl (c m : String) (s : ℚ) : String :=
  "Matched \x27" ++ c ++ "\x27 to \x27" ++ m ++ "\x27 (" ++ toString s ++ "%)"

/-- The rejection result of `extract_model_name`. -/
def noModelResult : FieldResult String :=
  ⟨Option.none, 0, "No model match found in asset master"⟩

/-- `FieldExtractor.extract_model_name`: candidates in order; per candidate,
first an exact membership test against the asset master (confidence 1.0),
otherwise the best fuzzy match accepted at threshold 95. -/
def extract_model_name (sc : String → String → ℚ) (master : List String) :
    List String → FieldResult String
  | [] => noModelResult
  | c :: rest =>
    if c = "" then extract_model_name sc master rest
    else if c ∈ master then ⟨some c, 1, "Exact match found: " ++ c⟩
    else
      match extractOne sc c master with
      | some (m, s) =>
        if s ≥ 95 then ⟨some m, s / 100, modelMatchedExpl c m s⟩
        else extract_model_name sc master rest
      | Option.none => extract_model_name sc master rest

/-- Explanation string of a horse-power value extracted from text. -/
def hpPatternExpl (v : ℤ) (p : String) : String :=
  "Extracted " ++ toString v ++ " HP using pattern \x27" ++ p ++ "\x27"

/-- The no-value result of `extract_horse_power`. -/
def noHPResult : FieldResult ℤ :=
  ⟨Option.none, 0, "No HP value found"⟩

/-- The OCR-text part of `FieldExtractor.extract_horse_power`.  Input: per
regex pattern (in the order of `hp_patterns`), the pattern string paired
with the integer values of its `re.findall` captures in document order.
Only the first match of a pattern is examined (`matches[0]`); it is
returned if it lies in 20–150, otherwise the loop moves on to the next
pattern. -/
def extract_horse_power_text : List (String × List ℤ) → FieldResult ℤ
  | [] => noHPResult
  | (p, ms) :: rest =>
    match ms with
    | [] => extract_horse_power_text rest
    | v :: _ =>
      if 20 ≤ v ∧ v ≤ 150 then ⟨some v, 85 / 100, hpPatternExpl v p⟩
      else extract_horse_power_text rest

/-- `FieldExtractor.extract_horse_power`: a non-`None` secondary (VLM) value
is converted with `int(...)` — which raises on a malformed numeric string —
and trusted at confidence 0.9; otherwise the OCR-text scan runs. -/
def extract_horse_power (vlm_hp : PyVal) (pms : List (String × List ℤ)) :
    Except String (FieldResult ℤ) :=
  match vlm_hp with
  | .vNone => .ok (extract_horse_power_text pms)
  | v =>
    match pyIntE v with
    | .ok n => .ok ⟨some n, 9 / 10, "Extracted " ++ toString n ++ " HP from VLM"⟩
    | .error e => .error e

/-- The policy the specification asserts for horse-power text extraction,
written from the spec words for comparison with the code: take the first
pattern with any match, discard that pattern's out-of-range matches (not
just its first occurrence), and never fall back to a later pattern. -/
def hpSpecClaimPolicy (pms : List (String × List ℤ)) : FieldResult ℤ :=
  match pms.find? (fun pm => ¬ pm.2.isEmpty) with
  | Option.none => noHPResult
  | some (p, ms) =>
    match ms.filter (fun v => decide (20 ≤ v ∧ v ≤ 150)) with
    | [] => noHPResult
    | v :: _ => ⟨some v, 85 / 100, hpPatternExpl v p⟩

/-- One cost candidate of `extract_asset_cost`: a captured match string is
comma-stripped, trimmed and parsed; it is kept with its pattern exactly
when the parsed value lies in 300000–1500000. -/
def costCandOfMatch (p : String) (m : String) : Option (ℚ × String) :=
  match parseFloatQ (stripWS (stripCommas m)) with
  | some v =>
    if 300000 ≤ v ∧ v ≤ 1500000 then some (v, p) else Option.none
  | Option.none => Option.none

/-- All in-range cost candidates across all patterns, in pattern-major,
document-order minor order, as the nested loops of `extract_asset_cost`
collect them.  Input: per pattern, the pattern string paired with its
`re.findall` capture strings. -/
def collectCostCandidates : List (String × List String) → List (ℚ × String)
  | [] => []
  | (p, ms) :: rest => ms.filterMap (costCandOfMatch p) ++ collectCostCandidates rest

/-- Python `max(candidates, key=lambda x: x[0])`: the first pair of maximal
first component. -/
def maxCand : List (ℚ × String) → Option (ℚ × String)
  | [] => Option.none
  | x :: xs => some (xs.foldl (fun b y => if b.1 < y.1 then y else b) x)

/-- Explanation string of an accepted cost candidate. -/
def costPatternExpl (v : ℚ) (p : String) : String :=
  "Extracted cost " ++ toString v ++ " using pattern \x27" ++ p ++ "\x27"

/-- The no-value result of `extract_asset_cost`. -/
def noCostResult : FieldResult ℚ :=
  ⟨Option.none, 0, "No valid cost found"⟩

/-- The OCR-text part of `FieldExtractor.extract_asset_cost`: collect every
in-range candidate across all patterns and return the highest value at
confidence 0.85. -/
def extract_asset_cost_text (pms : List (String × List String)) : FieldResult ℚ :=
  match maxCand (collectCostCandidates pms) with
  | some (v, p) => ⟨some v, 85 / 100, costPatternExpl v p⟩
  | Option.none => noCostResult

/-- `FieldExtractor.extract_asset_cost`: a non-`None` secondary (VLM) value
short-circuits the text scan.  On a string value the Python code always
raises: `float(vlm_cost)` raises `ValueError` on a malformed numeral, and
on a parseable numeral the f-string format spec `:,.2f` applied to the
original string raises `ValueError` as well. -/
def extract_asset_cost (vlm_cost : PyVal) (pms : List (String × List String)) :
    Except String (FieldResult ℚ) :=
  match vlm_cost with
  | .vNone => .ok (extract_asset_cost_text pms)
  | .vInt n => .ok ⟨some (n : ℚ), 9 / 10, "Extracted cost from VLM"⟩
  | .vFloat q => .ok ⟨some q, 9 / 10, "Extracted cost from VLM"⟩
  | .vStr _ => .error "ValueError"

/-- A field payload as the Validator receives it: either a dict-shaped
candidate record (`value`/`confidence`/`explanation` keys, any of which may
be absent) or a bare non-dict value. -/
inductive FieldIn where
  | dict : PyVal → Option ℚ → Option String → FieldIn
  | direct : PyVal → FieldIn
deriving DecidableEq

/-- A string-field payload at the Validator boundary. -/
inductive StrFieldIn where
  | dict : Option String → Option ℚ → Option String → StrFieldIn
  | direct : Option String → StrFieldIn
deriving DecidableEq

/-- Validated output of a string field. -/
structure ValidatedStr where
  value : Option String
  confidence : Option ℚ
  explanation : Option String
deriving DecidableEq

/-- Validated output of the horse-power field. -/
structure ValidatedHP where
  value : Option ℤ
  confidence : Option ℚ
  explanation : Option String
deriving DecidableEq

/-- Validated output of the asset-cost field. -/
structure ValidatedCost where
  value : Option ℚ
  confidence : Option ℚ
  explanation : Option String
deriving DecidableEq

/-- The `min_confidence` default of `Validator.__init__`. -/
def defaultMinConfidence : ℚ := 1 / 2

/-- The dealer-name / model-name section of `Validator.validate`: a
dict-shaped record passes iff its confidence (defaulting to 0) reaches
`minConf`; on rejection the value is nulled and the original confidence
and explanation are kept; a bare value is accepted at fixed confidence
0.5 with a generic explanation. -/
def validate_str_field (minConf : ℚ) : StrFieldIn → ValidatedStr
  | .dict v c e =>
    if c.getD 0 ≥ minConf then ⟨v, c, e⟩
    else ⟨Option.none, some (c.getD 0), some (e.getD "Low confidence")⟩
  | .direct v => ⟨v, some (1 / 2), some "Direct extraction"⟩

/-- `Validator._validate_hp_range`: `float(...)` succeeds and the value lies
in 15–200. -/
def validate_hp_range (v : PyVal) : Bool :=
  match pyFloatE v with
  | .ok q => decide (15 ≤ q ∧ q ≤ 200)
  | .error _ => false

/-- The horse-power section of `Validator.validate`: a truthy value passing
`_validate_hp_range` is stored as `int(hp_value)` — which can itself raise
on a fractional numeric string — and the reconciler confidence and
explanation pass through; otherwise the value is nulled with the original
confidence (default 0) and explanation kept. -/
def validate_hp_field : FieldIn → Except String ValidatedHP
  | .dict v c e =>
    if pyTruthy v && validate_hp_range v then
      match pyIntE v with
      | .ok n => .ok ⟨some n, c, e⟩
      | .error err => .error err
    else .ok ⟨Option.none, some (c.getD 0), some (e.getD "Invalid range or not found")⟩
  | .direct v =>
    if pyTruthy v && validate_hp_range v then
      match pyIntE v with
      | .ok n => .ok ⟨some n, some (7 / 10), some "Direct extraction"⟩
      | .error err => .error err
    else .ok ⟨Option.none, some 0, some "Invalid or not found"⟩

/-- `Validator._validate_cost_range`: `float(...)` succeeds and the value
lies in 200000–2000000. -/
def validate_cost_range (v : PyVal) : Bool :=
  match pyFloatE v with
  | .ok q => decide (200000 ≤ q ∧ q ≤ 2000000)
  | .error _ => false

/-- The asset-cost section of `Validator.validate`: a truthy value passing
`_validate_cost_range` is stored as `float(cost_value)` (total here, since
the same conversion already succeeded inside the range check); otherwise
the value is nulled with the original confidence and explanation kept. -/
def validate_cost_field : FieldIn → ValidatedCost
  | .dict v c e =>
    match pyFloatE v with
    | .ok q =>
      if pyTruthy v && decide (200000 ≤ q ∧ q ≤ 2000000) then ⟨some q, c, e⟩
      else ⟨Option.none, some (c.getD 0), some (e.getD "Invalid range or not found")⟩
    | .error _ => ⟨Option.none, some (c.getD 0), some (e.getD "Invalid range or not found")⟩
  | .direct v =>
    match pyFloatE v with
    | .ok q =>
      if pyTruthy v && decide (200000 ≤ q ∧ q ≤ 2000000) then ⟨some q, some (7 / 10), some "Direct extraction"⟩
      else ⟨Option.none, some 0, some "Invalid or not found"⟩
    | .error _ => ⟨Option.none, some 0, some "Invalid or not found"⟩

/-- An element of a candidate bounding-box list: a number (int or float) or
a value of any other type. -/
inductive PyElem where
  | num : ℚ → PyElem
  | nonNum : PyElem
deriving DecidableEq

/-- A candidate bounding box at the Validator boundary: `None`, a Python
list, or a value of any other shape. -/
inductive BBoxIn where
  | noneB : BBoxIn
  | list : List PyElem → BBoxIn
  | nonList : BBoxIn
deriving DecidableEq

/-- `Validator._validate_bbox`: exactly a 4-element list of numbers with
`x ≥ 0`, `y ≥ 0`, `w > 0`, `h > 0` is accepted, coerced to integers;
everything else yields `None`. -/
def validate_bbox : BBoxIn → Option (List ℤ)
  | .noneB => Option.none
  | .nonList => Option.none
  | .list es =>
    match es with
    | [.num x, .num y, .num w, .num h] =>
      if 0 ≤ x ∧ 0 ≤ y ∧ 0 < w ∧ 0 < h then
        some [truncRat x, truncRat y, truncRat w, truncRat h]
      else Option.none
    | _ => Option.none

/-- A detection payload (signature or stamp) as `Validator.validate`
receives it; each key may be absent. -/
structure DetectionIn where
  present : Option Bool
  bbox : BBoxIn
  confidence : Option ℚ
deriving DecidableEq

/-- A validated detection payload. -/
structure DetectionOut where
  present : Bool
  bbox : Option (List ℤ)
  confidence : ℚ
deriving DecidableEq

/-- The signature/stamp section of `Validator.validate`: `present` defaults
to `False`, the box goes through `_validate_bbox` independently of
`present`, and `confidence` defaults to 0. -/
def validateDetection (d : DetectionIn) : DetectionOut :=
  ⟨d.present.getD false, validate_bbox d.bbox, d.confidence.getD 0⟩

/-- Repackage an extractor `FieldResult` as the dict-shaped payload the
Validator receives for it. -/
def toFieldIn (r : FieldResult ℤ) : FieldIn :=
  .dict (match r.value with | some n => .vInt n | Option.none => .vNone)
    (some r.confidence) (some r.explanation)

theorem dealerScan_bs_mono (sc : String → String → ℚ) (master : List String)
    (cs : List String) : ∀ acc : BestTriple, acc.bs ≤ (dealerScan sc master acc cs).bs := by
  induction cs with
  | nil => intro acc; simp [dealerScan]
  | cons c cs ih =>
    intro acc
    simp only [dealerScan]
    by_cases hc : c = ""
    · simp only [hc, if_true]; exact ih acc
    · simp only [hc, if_false]
      cases hx : extractOne sc c master with
      | none => simp only [hx]; exact ih acc
      | some p =>
        obtain ⟨m, s⟩ := p
        simp only [hx]
        by_cases hgt : s > acc.bs
        · simp only [hgt, if_true]
          exact le_trans (le_of_lt hgt) (ih ⟨some m, s, some c⟩)
        · simp only [hgt, if_false]; exact ih acc

theorem dealerScan_bs_ub (sc : String → String → ℚ) (master : List String)
    (cs : List String) : ∀ (acc : BestTriple) (c : String), c ∈ cs → c ≠ "" →
      ∀ m s, extractOne sc c master = some (m, s) →
        s ≤ (dealerScan sc master acc cs).bs := by
  induction cs with
  | nil => intro acc c hc; exact absurd hc (List.not_mem_nil c)
  | cons d cs ih =>
    intro acc c hc hne m s hx
    rcases List.mem_cons.mp hc with rfl | hmem
    · simp only [dealerScan, hne, if_false, hx]
      by_cases hgt : s > acc.bs
      · simp only [hgt, if_true]
        exact dealerScan_bs_mono sc master cs ⟨some m, s, some c⟩
      · simp only [hgt, if_false]
        exact le_trans (not_lt.mp hgt) (dealerScan_bs_mono sc master cs acc)
    · simp only [dealerScan]
      by_cases hd : d = ""
      · simp only [hd, if_true]; exact ih acc c hmem hne m s hx
      · simp only [hd, if_false]
        cases hy : extractOne sc d master with
        | none => simp only [hy]; exact ih acc c hmem hne m s hx
        | some p =>
          obtain ⟨m2, s2⟩ := p
          simp only [hy]
          by_cases hgt : s2 > acc.bs
          · simp only [hgt, if_true]; exact ih ⟨some m2, s2, some d⟩ c hmem hne m s hx
          · simp only [hgt, if_false]; exact ih acc c hmem hne m s hx

theorem dealerScan_bm_isSome (sc : String → String → ℚ) (master : List String)
    (cs : List String) : ∀ acc : BestTriple, acc.bm.isSome →
      ((dealerScan sc master acc cs).bm).isSome := by
  induction cs with
  | nil => intro acc h; simpa [dealerScan] using h
  | cons c cs ih =>
    intro acc h
    simp only [dealerScan]
    by_cases hc : c = ""
    · simp only [hc, if_true]; exact ih acc h
    · simp only [hc, if_false]
      cases hx : extractOne sc c master with
      | none => simp only [hx]; exact ih acc h
      | some p =>
        obtain ⟨m, s⟩ := p
        simp only [hx]
        by_cases hgt : s > acc.bs
        · simp only [hgt, if_true]; exact ih ⟨some m, s, some c⟩ (by simp)
        · simp only [hgt, if_false]; exact ih acc h

theorem dealerScan_bm_none_eq (sc : String → String → ℚ) (master : List String)
    (cs : List String) : ∀ acc : BestTriple,
      (dealerScan sc master acc cs).bm = Option.none → dealerScan sc master acc cs = acc := by
  induction cs with
  | nil => intro acc _; rfl
  | cons c cs ih =>
    intro acc h
    simp only [dealerScan] at h ⊢
    by_cases hc : c = ""
    · simp only [hc, if_true] at h ⊢; exact ih acc h
    · simp only [hc, if_false] at h ⊢
      cases hx : extractOne sc c master with
      | none => simp only [hx] at h ⊢; exact ih acc h
      | some p =>
        obtain ⟨m, s⟩ := p
        simp only [hx] at h ⊢
        by_cases hgt : s > acc.bs
        · simp only [hgt, if_true] at h
          have hs := dealerScan_bm_isSome sc master cs ⟨some m, s, some c⟩ (by simp)
          rw [h] at hs
          simp at hs
        · simp only [hgt, if_false] at h ⊢; exact ih acc h

/-- C1: issuer reconciliation is best-of-all.  The score tracked by the
candidate loop bounds the best similarity of every candidate; a best score
of at least 90 yields that best reference as the value at confidence
`score / 100`; a best score below 90 yields `value = none` with an
explanation built from the best score seen. -/
theorem dealer_name_best_of_all (sc : String → String → ℚ) (master cands : List String) :
    (∀ c ∈ cands, c ≠ "" →
      ∀ m s, extractOne sc c master = some (m, s) → s ≤ (dealerBest sc master cands).bs)
    ∧ ((dealerBest sc master cands).bs ≥ 90 →
      extract_dealer_name sc master cands =
        ⟨(dealerBest sc master cands).bm, (dealerBest sc master cands).bs / 100,
          fuzzyMatchedExpl (dealerBest sc master cands).bc (dealerBest sc master cands).bm
            (dealerBest sc master cands).bs⟩)
    ∧ ((dealerBest sc master cands).bs < 90 →
      extract_dealer_name sc master cands =
        ⟨Option.none, 0, noDealerMatchExpl (dealerBest sc master cands).bs⟩) := by
  refine ⟨?_, ?_, ?_⟩
  · intro c hc hne m s hx
    exact dealerScan_bs_ub sc master cands ⟨Option.none, 0, Option.none⟩ c hc hne m s hx
  · intro h
    simp only [extract_dealer_name, h, if_true]
  · intro h
    simp only [extract_dealer_name, not_le.mpr h, if_false]

/-- A sample scorer for concrete instantiations of the issuer theorems. -/
def dscSample : String → String → ℚ := fun c _ => if c = "AB" then 95 else 0

theorem dealer_name_best_of_all_witness :
    (dealerBest dscSample ["ABC"] ["AB"]).bs ≥ 90
    ∧ extract_dealer_name dscSample ["ABC"] ["AB"] =
        ⟨(dealerBest dscSample ["ABC"] ["AB"]).bm, (dealerBest dscSample ["ABC"] ["AB"]).bs / 100,
          fuzzyMatchedExpl (dealerBest dscSample ["ABC"] ["AB"]).bc
            (dealerBest dscSample ["ABC"] ["AB"]).bm (dealerBest dscSample ["ABC"] ["AB"]).bs⟩ :=
  ⟨by decide, (dealer_name_best_of_all dscSample ["ABC"] ["AB"]).2.1 (by decide)⟩

/-- A constant scorer used for the rejection counterexample. -/
def sc50 : String → String → ℚ := fun _ _ => 50

/-- C9 counterexample: with one candidate scoring 50 (below 90), the code
returns confidence 0, not `best_score / 100 = 1/2`; the best score appears
only in the explanation. -/
theorem dealer_rejection_confidence_cex :
    (dealerBest sc50 ["REF"] ["CAND"]).bs = 50
    ∧ (extract_dealer_name sc50 ["REF"] ["CAND"]).value = Option.none
    ∧ (extract_dealer_name sc50 ["REF"] ["CAND"]).confidence = 0
    ∧ (extract_dealer_name sc50 ["REF"] ["CAND"]).confidence ≠ 50 / 100 := by
  refine ⟨by decide, by decide, by decide, ?_⟩
  have h0 : (extract_dealer_name sc50 ["REF"] ["CAND"]).confidence = 0 := by decide
  rw [h0]
  norm_num

/-- C9 amended: `value = none` exactly when the best score is below the 90
threshold; in that case the confidence is 0 and the rejection explanation
is built from the best score seen. -/
theorem dealer_value_none_iff_rejected (sc : String → String → ℚ) (master cands : List String) :
    ((extract_dealer_name sc master cands).value = Option.none ↔
      (dealerBest sc master cands).bs < 90)
    ∧ ((dealerBest sc master cands).bs < 90 →
      extract_dealer_name sc master cands =
        ⟨Option.none, 0, noDealerMatchExpl (dealerBest sc master cands).bs⟩) := by
  constructor
  · constructor
    · intro h
      by_contra hge
      push_neg at hge
      have hbm : (dealerBest sc master cands).bm ≠ Option.none := by
        intro hnone
        have := dealerScan_bm_none_eq sc master cands ⟨Option.none, 0, Option.none⟩ hnone
        have hbs : (dealerBest sc master cands).bs = 0 := by
          unfold dealerBest
          rw [this]
        rw [hbs] at hge
        norm_num at hge
      have hval : (extract_dealer_name sc master cands).value = (dealerBest sc master cands).bm := by
        simp only [extract_dealer_name, hge, if_true]
      rw [hval] at h
      exact hbm h
    · intro h
      simp only [extract_dealer_name, not_le.mpr h, if_false]
  · intro h
    simp only [extract_dealer_name, not_le.mpr h, if_false]

theorem dealer_value_none_iff_rejected_witness :
    (dealerBest sc50 ["REF"] ["CAND"]).bs < 90
    ∧ extract_dealer_name sc50 ["REF"] ["CAND"] =
        ⟨Option.none, 0, noDealerMatchExpl (dealerBest sc50 ["REF"] ["CAND"]).bs⟩ :=
  ⟨by decide, (dealer_value_none_iff_rejected sc50 ["REF"] ["CAND"]).2 (by decide)⟩

/-- C2: model reconciliation is first-acceptable.  An exact hit on the
first candidate short-circuits at confidence 1.0 whatever follows; a
fuzzy score of at least 95 on the first candidate is accepted whatever
follows (so a later, higher-scoring candidate is never considered); a
non-qualifying candidate defers to the rest of the list; and when no
candidate qualifies the result is `value = none` at confidence 0. -/
theorem model_name_first_acceptable (sc : String → String → ℚ) (master : List String) :
    (extract_model_name sc master [] = noModelResult)
    ∧ (∀ c rest, c ≠ "" → c ∈ master →
      extract_model_name sc master (c :: rest) = ⟨some c, 1, "Exact match found: " ++ c⟩)
    ∧ (∀ c rest m s, c ≠ "" → c ∉ master → extractOne sc c master = some (m, s) → s ≥ 95 →
      extract_model_name sc master (c :: rest) = ⟨some m, s / 100, modelMatchedExpl c m s⟩)
    ∧ (∀ c rest, c ≠ "" → c ∉ master →
      (∀ m s, extractOne sc c master = some (m, s) → s < 95) →
      extract_model_name sc master (c :: rest) = extract_model_name sc master rest)
    ∧ (∀ rest, extract_model_name sc master ("" :: rest) = extract_model_name sc master rest)
    ∧ (∀ cands, (∀ c ∈ cands, c ≠ "" →
        c ∉ master ∧ ∀ m s, extractOne sc c master = some (m, s) → s < 95) →
      extract_model_name sc master cands = noModelResult) := by
  refine ⟨rfl, ?_, ?_, ?_, ?_, ?_⟩
  · intro c rest hne hmem
    simp only [extract_model_name]
    rw [if_neg hne, if_pos hmem]
  · intro c rest m s hne hnm hx hs
    simp only [extract_model_name]
    rw [if_neg hne, if_neg hnm]
    simp only [hx]
    rw [if_pos hs]
  · intro c rest hne hnm hlt
    simp only [extract_model_name]
    rw [if_neg hne, if_neg hnm]
    cases hx : extractOne sc c master with
    | none => rfl
    | some p =>
      obtain ⟨m, s⟩ := p
      simp only []
      rw [if_neg (not_le.mpr (hlt m s hx))]
  · intro rest
    simp [extract_model_name]
  · intro cands h
    induction cands with
    | nil => rfl
    | cons c rest ih =>
      by_cases hc : c = ""
      · subst hc
        have he : extract_model_name sc master ("" :: rest) = extract_model_name sc master rest := by
          simp [extract_model_name]
        rw [he]
        exact ih (fun d hd => h d (List.mem_cons_of_mem _ hd))
      · obtain ⟨hnm, hlt⟩ := h c (List.mem_cons_self c rest) hc
        simp only [extract_model_name]
        rw [if_neg hc, if_neg hnm]
        cases hx : extractOne sc c master with
        | none => exact ih (fun d hd => h d (List.mem_cons_of_mem _ hd))
        | some p =>
          obtain ⟨m, s⟩ := p
          simp only []
          rw [if_neg (not_le.mpr (hlt m s hx))]
          exact ih (fun d hd => h d (List.mem_cons_of_mem _ hd))

/-- A sample scorer for concrete instantiations of the model theorems: the
first candidate scores 96, the second, later candidate scores 99. -/
def mscSample : String → String → ℚ :=
  fun c _ => if c = "M1" then 96 else if c = "M2" then 99 else 0

theorem model_name_first_acceptable_witness :
    "M1" ≠ "" ∧ "M1" ∉ ["REFM"] ∧ extractOne mscSample "M1" ["REFM"] = some ("REFM", 96)
    ∧ (96 : ℚ) ≥ 95
    ∧ extract_model_name mscSample ["REFM"] ["M1", "M2"] =
        ⟨some "REFM", 96 / 100, modelMatchedExpl "M1" "REFM" 96⟩ :=
  ⟨by decide, by decide, by decide, by norm_num,
    (model_name_first_acceptable mscSample ["REFM"]).2.2.1 "M1" ["M2"] "REFM" 96
      (by decide) (by decide) (by decide) (by norm_num)⟩

theorem maxFold_mem (xs : List (ℚ × String)) : ∀ b : ℚ × String,
    xs.foldl (fun b y => if b.1 < y.1 then y else b) b = b ∨
    xs.foldl (fun b y => if b.1 < y.1 then y else b) b ∈ xs := by
  induction xs with
  | nil => intro b; left; rfl
  | cons x xs ih =>
    intro b
    simp only [List.foldl_cons]
    by_cases h : b.1 < x.1
    · rw [if_pos h]
      rcases ih x with h1 | h1
      · right; rw [h1]; exact List.mem_cons_self x xs
      · right; exact List.mem_cons_of_mem x h1
    · rw [if_neg h]
      rcases ih b with h1 | h1
      · left; exact h1
      · right; exact List.mem_cons_of_mem x h1

theorem maxFold_ge (xs : List (ℚ × String)) : ∀ b : ℚ × String,
    b.1 ≤ (xs.foldl (fun b y => if b.1 < y.1 then y else b) b).1 ∧
    ∀ y ∈ xs, y.1 ≤ (xs.foldl (fun b y => if b.1 < y.1 then y else b) b).1 := by
  induction xs with
  | nil =>
    intro b
    refine ⟨le_refl _, ?_⟩
    intro y hy
    cases hy
  | cons x xs ih =>
    intro b
    simp only [List.foldl_cons]
    by_cases h : b.1 < x.1
    · rw [if_pos h]
      obtain ⟨h1, h2⟩ := ih x
      refine ⟨le_trans (le_of_lt h) h1, ?_⟩
      intro y hy
      rcases List.mem_cons.mp hy with rfl | hy
      · exact h1
      · exact h2 y hy
    · rw [if_neg h]
      obtain ⟨h1, h2⟩ := ih b
      refine ⟨h1, ?_⟩
      intro y hy
      rcases List.mem_cons.mp hy with rfl | hy
      · exact le_trans (not_lt.mp h) h1
      · exact h2 y hy

theorem collectCostCandidates_in_range : ∀ (pms : List (String × List String)) (vp : ℚ × String),
    vp ∈ collectCostCandidates pms → 300000 ≤ vp.1 ∧ vp.1 ≤ 1500000 := by
  intro pms
  induction pms with
  | nil => intro vp h; cases h
  | cons pm rest ih =>
    intro vp h
    obtain ⟨p0, ms⟩ := pm
    simp only [collectCostCandidates, List.mem_append] at h
    rcases h with h | h
    · obtain ⟨m, _, hsome⟩ := List.mem_filterMap.mp h
      unfold costCandOfMatch at hsome
      split at hsome
      · split at hsome
        · rename_i hr
          obtain rfl : _ = vp := Option.some.inj hsome
          exact hr
        · cases hsome
      · cases hsome
    · exact ih vp h

/-- C3: asset-cost extraction from text collects every match, across every
pattern, whose comma-stripped numeric value lies in the closed range
300000–1500000, and returns the maximum collected value at confidence
0.85; an empty collection yields `value = none`. -/
theorem asset_cost_max_of_collected (pms : List (String × List String)) :
    (collectCostCandidates pms = [] → extract_asset_cost_text pms = noCostResult)
    ∧ (collectCostCandidates pms ≠ [] → ∃ w q,
        (w, q) ∈ collectCostCandidates pms
        ∧ (∀ vp ∈ collectCostCandidates pms, vp.1 ≤ w)
        ∧ extract_asset_cost_text pms = ⟨some w, 85 / 100, costPatternExpl w q⟩)
    ∧ (∀ vp ∈ collectCostCandidates pms, 300000 ≤ vp.1 ∧ vp.1 ≤ 1500000) := by
  refine ⟨?_, ?_, ?_⟩
  · intro h
    unfold extract_asset_cost_text
    rw [h]
    rfl
  · intro h
    cases hc : collectCostCandidates pms with
    | nil => exact absurd hc h
    | cons x xs =>
      have hmem := maxFold_mem xs x
      have hge := maxFold_ge xs x
      rcases hfold : xs.foldl (fun b y => if b.1 < y.1 then y else b) x with ⟨wv, wp⟩
      rw [hfold] at hmem hge
      refine ⟨wv, wp, ?_, ?_, ?_⟩
      · rcases hmem with h1 | h1
        · rw [h1]; exact List.mem_cons_self x xs
        · exact List.mem_cons_of_mem x h1
      · intro vp hvp
        rcases List.mem_cons.mp hvp with rfl | hvp
        · exact hge.1
        · exact hge.2 vp hvp
      · unfold extract_asset_cost_text
        rw [hc]
        simp only [maxCand, hfold]
  · exact fun vp h => collectCostCandidates_in_range pms vp h

/-- Concrete pattern-match data for the cost witness: two in-range
candidates, 350000 and 1200000. -/
def costSamplePMS : List (String × List String) :=
  [("p1", ["350,000"]), ("p2", ["1,200,000"])]

theorem asset_cost_max_witness :
    collectCostCandidates costSamplePMS ≠ []
    ∧ (∃ w q, (w, q) ∈ collectCostCandidates costSamplePMS
        ∧ (∀ vp ∈ collectCostCandidates costSamplePMS, vp.1 ≤ w)
        ∧ extract_asset_cost_text costSamplePMS = ⟨some w, 85 / 100, costPatternExpl w q⟩)
    ∧ (extract_asset_cost_text costSamplePMS).value = some 1200000 :=
  ⟨by decide, (asset_cost_max_of_collected costSamplePMS).2.1 (by decide), by decide⟩

/-- Pattern-match data separating the claimed and the implemented
horse-power policy: the first pattern's only match (500) is out of range,
the second pattern's first match (40) is in range. -/
def hpCexPMS : List (String × List ℤ) := [("p1", [500]), ("p2", [40])]

/-- C4 counterexample: the claimed no-fallback policy predicts no value
when the first matching pattern has only out-of-range matches, but the
code falls back to the next pattern and extracts 40. -/
theorem horse_power_no_fallback_cex :
    (extract_horse_power_text hpCexPMS).value = some 40
    ∧ (hpSpecClaimPolicy hpCexPMS).value = Option.none
    ∧ extract_horse_power_text hpCexPMS ≠ hpSpecClaimPolicy hpCexPMS := by
  refine ⟨by decide, by decide, ?_⟩
  intro h
  have h40 : (extract_horse_power_text hpCexPMS).value = some 40 := by decide
  have hn : (hpSpecClaimPolicy hpCexPMS).value = Option.none := by decide
  rw [h, hn] at h40
  cases h40

/-- C4 amended: the patterns are tried in order and only the FIRST match of
each pattern is examined; an in-range (20–150) first match is returned at
confidence 0.85, an out-of-range first match skips to the NEXT pattern
(fallback does occur), later matches of a pattern are never examined, and
when no pattern yields an in-range first match no value is extracted. -/
theorem horse_power_first_match_per_pattern (p : String) (v : ℤ) (ms : List ℤ)
    (rest : List (String × List ℤ)) :
    (extract_horse_power_text [] = noHPResult)
    ∧ (extract_horse_power_text ((p, []) :: rest) = extract_horse_power_text rest)
    ∧ (20 ≤ v ∧ v ≤ 150 →
        extract_horse_power_text ((p, v :: ms) :: rest) = ⟨some v, 85 / 100, hpPatternExpl v p⟩)
    ∧ (¬(20 ≤ v ∧ v ≤ 150) →
        extract_horse_power_text ((p, v :: ms) :: rest) = extract_horse_power_text rest)
    ∧ (∀ ms2 : List ℤ, extract_horse_power_text ((p, v :: ms) :: rest) =
        extract_horse_power_text ((p, v :: ms2) :: rest)) := by
  refine ⟨rfl, rfl, ?_, ?_, ?_⟩
  · intro h
    simp only [extract_horse_power_text]
    rw [if_pos h]
  · intro h
    simp only [extract_horse_power_text]
    rw [if_neg h]
  · intro ms2
    simp only [extract_horse_power_text]

theorem horse_power_first_match_witness :
    ((20 : ℤ) ≤ 45 ∧ (45 : ℤ) ≤ 150)
    ∧ extract_horse_power_text [("p1", [45])] = ⟨some 45, 85 / 100, hpPatternExpl 45 "p1"⟩ :=
  ⟨by decide, (horse_power_first_match_per_pattern "p1" 45 [] []).2.2.1 (by decide)⟩

/-- C5: the fusion core is not exception-free: a structured secondary
payload whose horse_power or asset_cost is the malformed numeric string
"abc" makes the extractor raise (a `ValueError` from the unguarded numeric
conversion of the secondary value) instead of skipping it, whatever the
OCR text holds. -/
theorem vlm_malformed_numeric_raises :
    (∀ pms : List (String × List ℤ),
      extract_horse_power (.vStr "abc") pms = .error "ValueError")
    ∧ (∀ pms : List (String × List String),
      extract_asset_cost (.vStr "abc") pms = .error "ValueError") := by
  constructor
  · intro pms
    have hp : parseIntStr "abc" = Option.none := by decide
    simp only [extract_horse_power, pyIntE, hp]
  · intro pms
    rfl

theorem validate_hp_field_accept (v : PyVal) (c : Option ℚ) (e : Option String)
    (q : ℚ) (n : ℤ) (hf : pyFloatE v = .ok q) (hi : pyIntE v = .ok n)
    (ht : pyTruthy v = true) (h1 : 15 ≤ q) (h2 : q ≤ 200) :
    validate_hp_field (.dict v c e) = .ok ⟨some n, c, e⟩ := by
  have hr : validate_hp_range v = true := by
    simp only [validate_hp_range, hf]
    exact decide_eq_true ⟨h1, h2⟩
  simp only [validate_hp_field, ht, hr, Bool.and_self, if_true, hi]

theorem validate_hp_field_reject (v : PyVal) (c : Option ℚ) (e : Option String)
    (hcond : (pyTruthy v && validate_hp_range v) = false) :
    validate_hp_field (.dict v c e) =
      .ok ⟨Option.none, some (c.getD 0), some (e.getD "Invalid range or not found")⟩ := by
  simp only [validate_hp_field, hcond, Bool.false_eq_true, if_false]

theorem extract_horse_power_text_range : ∀ (pms : List (String × List ℤ)) (v : ℤ),
    (extract_horse_power_text pms).value = some v → 20 ≤ v ∧ v ≤ 150 := by
  intro pms
  induction pms with
  | nil =>
    intro v h
    simp [extract_horse_power_text, noHPResult] at h
  | cons pm rest ih =>
    intro v h
    obtain ⟨p, ms⟩ := pm
    cases ms with
    | nil => exact ih v h
    | cons w ws =>
      by_cases hr : 20 ≤ w ∧ w ≤ 150
      · have he : extract_horse_power_text ((p, w :: ws) :: rest) =
            ⟨some w, 85 / 100, hpPatternExpl w p⟩ := by
          simp only [extract_horse_power_text]
          rw [if_pos hr]
        rw [he] at h
        obtain rfl : w = v := Option.some.inj h
        exact hr
      · have he : extract_horse_power_text ((p, w :: ws) :: rest) =
            extract_horse_power_text rest := by
          simp only [extract_horse_power_text]
          rw [if_neg hr]
        rw [he] at h
        exact ih v h

/-- C6: the Validator accepts a numeric horse-power value exactly when it
lies in the closed band 15–200, nulling the value and preserving the
reconciler confidence and explanation otherwise; every extractor-accepted
value (necessarily in 20–150) survives validation unchanged, and a
secondary-source integer in [150, 200] survives as well, the validator
band being the authoritative gate. -/
theorem validator_hp_band_15_200 :
    (∀ (v : PyVal) (c : Option ℚ) (e : Option String) (q : ℚ), pyNum v = some q →
      ∃ n : ℤ, pyIntE v = .ok n
        ∧ (15 ≤ q ∧ q ≤ 200 → validate_hp_field (.dict v c e) = .ok ⟨some n, c, e⟩)
        ∧ (¬(15 ≤ q ∧ q ≤ 200) → validate_hp_field (.dict v c e) =
            .ok ⟨Option.none, some (c.getD 0), some (e.getD "Invalid range or not found")⟩))
    ∧ (∀ (pms : List (String × List ℤ)) (v : ℤ),
        (extract_horse_power_text pms).value = some v →
        (20 ≤ v ∧ v ≤ 150)
        ∧ validate_hp_field (toFieldIn (extract_horse_power_text pms)) =
            .ok ⟨some v, some (extract_horse_power_text pms).confidence,
              some (extract_horse_power_text pms).explanation⟩)
    ∧ (∀ (n : ℤ) (c : Option ℚ) (e : Option String), 150 ≤ n → n ≤ 200 →
        validate_hp_field (.dict (.vInt n) c e) = .ok ⟨some n, c, e⟩) := by
  refine ⟨?_, ?_, ?_⟩
  · intro v c e q hq
    cases v with
    | vNone => cases hq
    | vStr s => cases hq
    | vInt n =>
      obtain rfl : (n : ℚ) = q := Option.some.inj hq
      refine ⟨n, rfl, ?_, ?_⟩
      · rintro ⟨h1, h2⟩
        have h1i : (15 : ℤ) ≤ n := by exact_mod_cast h1
        have ht : pyTruthy (.vInt n) = true := by
          have hne : n ≠ 0 := by omega
          simp [pyTruthy, hne]
        exact validate_hp_field_accept _ c e (n : ℚ) n rfl rfl ht h1 h2
      · intro hnr
        have hr : validate_hp_range (.vInt n) = false := by
          simp only [validate_hp_range, pyFloatE]
          exact decide_eq_false hnr
        exact validate_hp_field_reject _ c e (by rw [hr, Bool.and_false])
    | vFloat q0 =>
      obtain rfl : q0 = q := Option.some.inj hq
      refine ⟨truncRat q0, rfl, ?_, ?_⟩
      · rintro ⟨h1, h2⟩
        have ht : pyTruthy (.vFloat q0) = true := by
          have hne : q0 ≠ 0 := ne_of_gt (lt_of_lt_of_le (by norm_num) h1)
          simp [pyTruthy, hne]
        exact validate_hp_field_accept _ c e q0 (truncRat q0) rfl rfl ht h1 h2
      · intro hnr
        have hr : validate_hp_range (.vFloat q0) = false := by
          simp only [validate_hp_range, pyFloatE]
          exact decide_eq_false hnr
        exact validate_hp_field_reject _ c e (by rw [hr, Bool.and_false])
  · intro pms v h
    obtain ⟨h20, h150⟩ := extract_horse_power_text_range pms v h
    refine ⟨⟨h20, h150⟩, ?_⟩
    have hv : toFieldIn (extract_horse_power_text pms) =
        .dict (.vInt v) (some (extract_horse_power_text pms).confidence)
          (some (extract_horse_power_text pms).explanation) := by
      simp only [toFieldIn, h]
    rw [hv]
    have ht : pyTruthy (.vInt v) = true := by
      have hne : v ≠ 0 := by omega
      simp [pyTruthy, hne]
    refine validate_hp_field_accept _ _ _ (v : ℚ) v rfl rfl ht ?_ ?_
    · exact_mod_cast (by omega : (15 : ℤ) ≤ v)
    · exact_mod_cast (by omega : v ≤ (200 : ℤ))
  · intro n c e h1 h2
    have ht : pyTruthy (.vInt n) = true := by
      have hne : n ≠ 0 := by omega
      simp [pyTruthy, hne]
    refine validate_hp_field_accept _ _ _ (n : ℚ) n rfl rfl ht ?_ ?_
    · exact_mod_cast (by omega : (15 : ℤ) ≤ n)
    · exact_mod_cast h2

theorem validator_hp_band_witness :
    ((150 : ℤ) ≤ 180 ∧ (180 : ℤ) ≤ 200)
    ∧ validate_hp_field (.dict (.vInt 180) (some (9 / 10)) (some "vlm")) =
        .ok ⟨some 180, some (9 / 10), some "vlm"⟩ :=
  ⟨by decide,
    validator_hp_band_15_200.2.2 180 (some (9 / 10)) (some "vlm") (by decide) (by decide)⟩

/-- C7: bounding-box normalization accepts exactly a 4-element list of
numbers with non-negative x/y and strictly positive width/height, coercing
to integers; every other shape yields `bbox = none` regardless of the
`present` flag, and `present = True` with `bbox = None` is a producible
output. -/
theorem validator_bbox_normalization :
    (∀ (b : BBoxIn) (out : List ℤ), validate_bbox b = some out ↔
      ∃ x y w h : ℚ, b = .list [.num x, .num y, .num w, .num h]
        ∧ 0 ≤ x ∧ 0 ≤ y ∧ 0 < w ∧ 0 < h
        ∧ out = [truncRat x, truncRat y, truncRat w, truncRat h])
    ∧ (∀ (p : Option Bool) (c : Option ℚ),
        (validateDetection ⟨p, .list [.num 10, .num 10, .num 0, .num 5], c⟩).bbox =
          Option.none)
    ∧ (validateDetection ⟨some true, .noneB, Option.none⟩ = ⟨true, Option.none, 0⟩) := by
  refine ⟨?_, ?_, by decide⟩
  · intro b out
    constructor
    · intro h
      cases b with
      | noneB => cases h
      | nonList => cases h
      | list es =>
        simp only [validate_bbox] at h
        split at h
        · rename_i x y w h4
          split at h
          · rename_i hcond
            obtain ⟨hx, hy, hw, hh⟩ := hcond
            exact ⟨x, y, w, h4, rfl, hx, hy, hw, hh, (Option.some.inj h).symm⟩
          · cases h
        · cases h
    · rintro ⟨x, y, w, h4, rfl, h1, h2, h3, h4c, rfl⟩
      simp only [validate_bbox]
      rw [if_pos (⟨h1, h2, h3, h4c⟩ : 0 ≤ x ∧ 0 ≤ y ∧ 0 < w ∧ 0 < h4)]
  · intro p c
    show validate_bbox (.list [.num 10, .num 10, .num 0, .num 5]) = Option.none
    decide

theorem validator_bbox_normalization_witness :
    validate_bbox (.list [.num 1, .num 2, .num 3, .num 4]) = some [1, 2, 3, 4]
    ∧ (validateDetection
        ⟨some false, .list [.num 10, .num 10, .num 0, .num 5], Option.none⟩).bbox =
      Option.none :=
  ⟨(validator_bbox_normalization.1 (.list [.num 1, .num 2, .num 3, .num 4])
      [1, 2, 3, 4]).mpr
      ⟨1, 2, 3, 4, rfl, by norm_num, by norm_num, by norm_num, by norm_num, by decide⟩,
    validator_bbox_normalization.2.1 (some false) Option.none⟩

/-- C8 counterexample: a detection payload with `present = False` and a
valid box keeps its box after validation, so the claimed invariant
`present = False → bbox = None` fails on the Validator output. -/
theorem detection_present_false_bbox_cex :
    validateDetection ⟨some false, .list [.num 1, .num 2, .num 3, .num 4], Option.none⟩ =
      ⟨false, some [1, 2, 3, 4], 0⟩
    ∧ (validateDetection
        ⟨some false, .list [.num 1, .num 2, .num 3, .num 4], Option.none⟩).bbox ≠
      Option.none := by
  refine ⟨by decide, by decide⟩

/-- C8 amended: the Validator does not enforce the invariant; `present` and
`bbox` are validated independently — the output box is exactly
`_validate_bbox` of the input box whatever the `present` flag says, so a
`present = False` payload with a valid box keeps it. -/
theorem detection_bbox_independent_of_present (d : DetectionIn) :
    (validateDetection d).bbox = validate_bbox d.bbox
    ∧ (validateDetection d).present = d.present.getD false
    ∧ (validateDetection d).confidence = d.confidence.getD 0 :=
  ⟨rfl, rfl, rfl⟩

theorem validate_cost_field_accept (q : ℚ) (c : Option ℚ) (e : Option String)
    (h1 : 200000 ≤ q) (h2 : q ≤ 2000000) :
    validate_cost_field (.dict (.vFloat q) c e) = ⟨some q, c, e⟩ := by
  have ht : pyTruthy (.vFloat q) = true := by
    have hne : q ≠ 0 := ne_of_gt (lt_of_lt_of_le (by norm_num) h1)
    simp [pyTruthy, hne]
  have hd : decide (200000 ≤ q ∧ q ≤ 2000000) = true :=
    decide_eq_true (⟨h1, h2⟩ : 200000 ≤ q ∧ q ≤ 2000000)
  simp only [validate_cost_field, pyFloatE, ht, hd, Bool.true_and, Bool.and_self, if_true]

/-- C10: the Validator gates dict-shaped string fields (dealer/model) on
the constructor-default minimum confidence 0.5 — below it the value is
nulled while the original confidence (default 0) and explanation are
kept — whereas the numeric fields horse_power and asset_cost carry no
confidence gate at all and are gated only by their plausibility ranges. -/
theorem validator_min_confidence_gate :
    defaultMinConfidence = 1 / 2
    ∧ (∀ (v : Option String) (c : Option ℚ) (e : Option String),
        c.getD 0 < defaultMinConfidence →
        validate_str_field defaultMinConfidence (.dict v c e) =
          ⟨Option.none, some (c.getD 0), some (e.getD "Low confidence")⟩)
    ∧ (∀ (v : Option String) (c : Option ℚ) (e : Option String),
        defaultMinConfidence ≤ c.getD 0 →
        validate_str_field defaultMinConfidence (.dict v c e) = ⟨v, c, e⟩)
    ∧ (∀ (n : ℤ) (c : ℚ) (e : String), 15 ≤ n → n ≤ 200 →
        validate_hp_field (.dict (.vInt n) (some c) (some e)) =
          .ok ⟨some n, some c, some e⟩)
    ∧ (∀ (q c : ℚ) (e : String), 200000 ≤ q → q ≤ 2000000 →
        validate_cost_field (.dict (.vFloat q) (some c) (some e)) =
          ⟨some q, some c, some e⟩) := by
  refine ⟨rfl, ?_, ?_, ?_, ?_⟩
  · intro v c e h
    simp only [validate_str_field]
    rw [if_neg (not_le.mpr h)]
  · intro v c e h
    simp only [validate_str_field]
    rw [if_pos h]
  · intro n c e h1 h2
    have ht : pyTruthy (.vInt n) = true := by
      have hne : n ≠ 0 := by omega
      simp [pyTruthy, hne]
    refine validate_hp_field_accept _ _ _ (n : ℚ) n rfl rfl ht ?_ ?_
    · exact_mod_cast h1
    · exact_mod_cast h2
  · intro q c e h1 h2
    exact validate_cost_field_accept q (some c) (some e) h1 h2

theorem validator_min_confidence_gate_witness :
    ((some (3 / 10) : Option ℚ).getD 0 < defaultMinConfidence)
    ∧ validate_str_field defaultMinConfidence
        (.dict (some "DLR") (some (3 / 10)) (some "why")) =
      ⟨Option.none, some ((some (3 / 10) : Option ℚ).getD 0),
        some ((some "why" : Option String).getD "Low confidence")⟩ :=
  ⟨by norm_num [defaultMinConfidence],
    validator_min_confidence_gate.2.1 (some "DLR") (some (3 / 10)) (some "why")
      (by norm_num [defaultMinConfidence])⟩
